import Mathlib

/-!
Verification of the retrieval and ranking core of `mail-search`.

This file gives a shallow embedding, in Lean 4, of the Python modules
`mail_search/semantic.py`, `mail_search/database.py`, `mail_search/indexer.py`
and `mail_search/cli.py`, together with theorems settling the frozen claims
about them.

Modelling conventions:
* Python `float` values are modelled as real numbers (`ℝ`) wherever square
  roots occur (`_normalise`, `cosine_similarity`), and as rationals (`ℚ`)
  elsewhere (scores handled by `_merge_results` are kept polymorphic over a
  linear ordered field so that both sides fit).
* The stdlib hash collaborators (`hashlib.blake2b`, `hashlib.sha1`) are not
  repository code; they enter the model as opaque function parameters
  (`digest`, `sha1hex`).  Every claim touching them only needs that they are
  functions of their input.
* SQLite tables keyed by a primary key are modelled as maps
  `String → Option _`; the FTS index and the vector table follow the actual
  DDL of `database.py` (in particular `message_vectors` is keyed by
  `message_id` alone, with the backend tag as a payload column).
* Python's stable `list.sort(key=..., reverse=True)` is modelled by a stable
  descending insertion sort (`sortDescBy`); stability plus the comparison
  determine the output of a stable sort uniquely, so this coincides with the
  Python result.
-/

namespace MailSearch

/-! ## Tokenisation (`semantic._tokenize`) -/

/-- Accumulator loop of `_tokenize`: runs of alphanumeric characters become
tokens, every other character is a separator; a nonempty accumulator is
flushed at the end. -/
def tokenizeAux : List Char → List Char → List (List Char)
  | cur, [] => if cur = [] then [] else [cur]
  | cur, c :: rest =>
    if c.isAlphanum then tokenizeAux (cur ++ [c]) rest
    else if cur = [] then tokenizeAux [] rest
    else cur :: tokenizeAux [] rest

/-- Model of `semantic._tokenize`: lowercase the text, then split it into
maximal alphanumeric runs.  (`Char.toLower`/`Char.isAlphanum` model Python's
`str.lower`/`str.isalnum`; they agree on ASCII.) -/
def tokenize (text : String) : List String :=
  (tokenizeAux [] (text.toList.map Char.toLower)).map (fun l => String.mk l)

/-! ## Byte-level helpers (`array('f')`, `int.from_bytes`) -/

/-- Slices `digest[offset:offset+4]` for `offset in range(0, len(digest), 4)`:
the list cut into chunks of four, the final chunk possibly shorter. -/
def chunksOf4 : List ℕ → List (List ℕ)
  | [] => []
  | a :: rest => (a :: rest.take 3) :: chunksOf4 (rest.drop 3)
termination_by l => l.length
decreasing_by simp; omega

/-- Little-endian unsigned interpretation of a byte list, as in
`int.from_bytes(chunk, "little", signed=False)`. -/
def fromLEBytes (bs : List ℕ) : ℕ :=
  bs.foldr (fun b acc => b + 256 * acc) 0

/-- Four little-endian bytes of a 32-bit word. -/
def toLEBytes4 (n : ℕ) : List ℕ :=
  [n % 256, n / 256 % 256, n / 65536 % 256, n / 16777216 % 256]

/-! ## IEEE-754 binary32 conversion

`array('f', vector)` converts each Python float to a single-precision value.
The conversion is implemented here concretely over `ℚ`: `encode32` is
round-to-nearest-even conversion to the 32-bit pattern, `decode32` reads a
pattern back.  Infinities and NaNs do not arise from finite rational input
except through overflow, which `encode32` clamps to the infinity pattern
(CPython instead raises `OverflowError`; no claim touches that case). -/

/-- Fuel-driven binary logarithm: `log2fuel fuel n = ⌊log₂ n⌋` whenever
`0 < n < 2 ^ (fuel + 1)`. -/
def log2fuel : ℕ → ℕ → ℕ
  | 0, _ => 0
  | fuel + 1, n => if n < 2 then 0 else log2fuel fuel (n / 2) + 1

/-- Floor of the base-2 logarithm of a positive rational. -/
def floorLog2 (a : ℚ) : ℤ :=
  let p := a.num.toNat
  let q := a.den
  let d : ℤ := (log2fuel p p : ℤ) - (log2fuel q q : ℤ)
  if (2 : ℚ) ^ d ≤ a then d else d - 1

/-- Round a nonnegative rational to the nearest integer, ties to even. -/
def roundNE (x : ℚ) : ℤ :=
  if x - ⌊x⌋ < 1 / 2 then ⌊x⌋
  else if 1 / 2 < x - ⌊x⌋ then ⌊x⌋ + 1
  else if ⌊x⌋ % 2 = 0 then ⌊x⌋ else ⌊x⌋ + 1

/-- Bit pattern of the binary32 value nearest to `x` (ties to even). -/
def encode32 (x : ℚ) : ℕ :=
  if x = 0 then 0
  else
    let s : ℕ := if x < 0 then 2 ^ 31 else 0
    let a := |x|
    let e := floorLog2 a
    if e < -126 then
      s + (roundNE (a * 2 ^ 149)).toNat
    else if 127 < e then
      s + 255 * 2 ^ 23
    else
      s + (e + 127).toNat * 2 ^ 23 + ((roundNE (a * (2 : ℚ) ^ (23 - e))).toNat - 2 ^ 23)

/-- Rational value of a binary32 bit pattern (NaN/infinity patterns, which the
rational model cannot produce by round trip, read as 0). -/
def decode32 (bits : ℕ) : ℚ :=
  let s : ℕ := bits / 2 ^ 31 % 2
  let ef : ℕ := bits / 2 ^ 23 % 2 ^ 8
  let m : ℕ := bits % 2 ^ 23
  let sign : ℚ := if s = 1 then -1 else 1
  if ef = 0 then sign * (m : ℚ) * (2 : ℚ) ^ (-149 : ℤ)
  else if ef = 255 then 0
  else sign * ((2 ^ 23 + m : ℕ) : ℚ) * (2 : ℚ) ^ ((ef : ℤ) - 150)

/-- Composite of conversion to binary32 and back; a rational is exactly
representable in binary32 precisely when this map fixes it. -/
def float32Round (x : ℚ) : ℚ :=
  decode32 (encode32 x)

/-- Model of `semantic.serialise_vector`: each component packed as four
little-endian bytes of its binary32 pattern (`array('f', vector).tobytes()`). -/
def serialise_vector (v : List ℚ) : List ℕ :=
  (v.map (fun x => toLEBytes4 (encode32 x))).flatten

/-- Model of `semantic.deserialise_vector`: `array('f').frombytes` demands a
length that is a multiple of four (raising `ValueError` otherwise, modelled as
`none`) and reads each four-byte group as a binary32 value. -/
def deserialise_vector (blob : List ℕ) : Option (List ℚ) :=
  if blob.length % 4 = 0 then
    some ((chunksOf4 blob).map (fun c => decode32 (fromLEBytes c)))
  else none

/-! ## Vector math over ℝ (`semantic._normalise`, `semantic.cosine_similarity`) -/

/-- Sum of squared components, `sum(component * component for component in v)`. -/
def normSq (v : List ℝ) : ℝ :=
  (v.map (fun x => x * x)).sum

/-- Model of `semantic._normalise`: divide every component by the Euclidean
norm, except that a vector of zero norm is left untouched. -/
noncomputable def normalise (v : List ℝ) : List ℝ :=
  if normSq v = 0 then v
  else v.map (fun x => x / Real.sqrt (normSq v))

/-- Model of `semantic.cosine_similarity`: one pass over `zip(lhs, rhs)`
accumulating the inner product and both squared norms; zero if either squared
norm is zero, otherwise the normalised inner product. -/
noncomputable def cosine_similarity (lhs rhs : List ℝ) : ℝ :=
  let ps := lhs.zip rhs
  let numerator := (ps.map (fun p => p.1 * p.2)).sum
  let lhsNormSq := (ps.map (fun p => p.1 * p.1)).sum
  let rhsNormSq := (ps.map (fun p => p.2 * p.2)).sum
  if lhsNormSq = 0 ∨ rhsNormSq = 0 then 0
  else numerator / (Real.sqrt lhsNormSq * Real.sqrt rhsNormSq)

/-! ## Body previews (`semantic.body_preview`) -/

/-- Whitespace collapsing, `" ".join(text.split())`. -/
def collapseWs (text : String) : String :=
  String.intercalate " " ((text.split (fun c => c.isWhitespace)).filter (fun p => p ≠ ""))

/-- Python's `str.rstrip()`: drop trailing whitespace. -/
def rstripWs (s : String) : String :=
  String.mk ((s.toList.reverse.dropWhile Char.isWhitespace).reverse)

/-- Model of `semantic.body_preview` with character budget `n` (the source
default is 160): collapse whitespace and, beyond the budget, truncate to
`n - 1` characters, strip trailing whitespace and append an ellipsis. -/
def body_preview (n : ℕ) (text : String) : String :=
  let collapsed := collapseWs text
  if collapsed.length ≤ n then collapsed
  else rstripWs (collapsed.take (n - 1)) ++ "…"

/-! ## Hash embedding backend (`semantic.HashEmbeddingBackend`) -/

/-- Model of a constructed `HashEmbeddingBackend` instance. -/
structure HashEmbeddingBackend where
  dimension : ℕ
  identifier : String
deriving DecidableEq

/-- Model of `HashEmbeddingBackend.__init__`: a nonpositive dimension raises
`ValueError` (modelled as `none`); otherwise the identifier is `"hash/DIM"`. -/
def mkHashBackend (d : ℤ) : Option HashEmbeddingBackend :=
  if d ≤ 0 then none
  else some ⟨d.toNat, "hash/" ++ toString d⟩

/-- Bucket indices contributed by one token: the 16-byte digest is cut into
four-byte chunks, each read little-endian and reduced modulo the dimension. -/
def chunkIndices (digestBytes : List ℕ) (dim : ℕ) : List ℕ :=
  (chunksOf4 digestBytes).map (fun c => fromLEBytes c % dim)

/-- One `vector[index] += 1.0` step. -/
def incrementAt (v : List ℝ) (i : ℕ) : List ℝ :=
  v.set i (v.getD i 0 + 1)

/-- Token-count accumulation of `HashEmbeddingBackend.embed` for one text,
before normalisation: start from the zero vector of the given dimension and
bump one bucket per digest chunk per token.  `digest` stands for
`hashlib.blake2b(token.encode("utf-8"), digest_size=16).digest()`. -/
def rawVector (digest : String → List ℕ) (dim : ℕ) (text : String) : List ℝ :=
  (tokenize text).foldl
    (fun v tok => (chunkIndices (digest tok) dim).foldl incrementAt v)
    (List.replicate dim 0)

/-- Model of `HashEmbeddingBackend.embed` restricted to one text: accumulate
token hashes, then L2-normalise. -/
noncomputable def hashEmbedOne (digest : String → List ℕ) (dim : ℕ) (text : String) : List ℝ :=
  normalise (rawVector digest dim text)

/-- Model of `HashEmbeddingBackend.embed`: one vector per input text, in
order. -/
noncomputable def hashEmbed (digest : String → List ℕ) (be : HashEmbeddingBackend)
    (texts : List String) : List (List ℝ) :=
  texts.map (hashEmbedOne digest be.dimension)

/-! ## Result rows and stable descending sort -/

/-- Row shape returned by `MailDatabase.search` and consumed by
`_merge_results` (the unused `bm25` score column is omitted). -/
structure LexRow where
  message_id : String
  subject : Option String
  from_addr : Option String
  to_addr : Option String
  date : Option String
  snippet : String
deriving DecidableEq

/-- Result dictionary shape produced by `semantic_search` and by
`_merge_results`, polymorphic in the score field. -/
structure Payload (α : Type) where
  message_id : String
  subject : Option String
  from_addr : Option String
  to_addr : Option String
  date : Option String
  snippet : String
  score : α
deriving DecidableEq

/-- Stable descending insertion (by key) of one element into a sorted list:
the element passes over every strictly larger key and lands before the first
key that is not larger. -/
def insertDescBy [LinearOrder α] (key : β → α) (x : β) : List β → List β
  | [] => [x]
  | y :: t => if key y ≤ key x then x :: y :: t else y :: insertDescBy key x t

/-- Stable descending sort by key.  This models Python's stable
`list.sort(key=..., reverse=True)`: a stable sort's output is determined
uniquely by the comparison and the input order, so any stable implementation
agrees with CPython's. -/
def sortDescBy [LinearOrder α] (key : β → α) (l : List β) : List β :=
  l.foldr (insertDescBy key) []

/-! ## Association lists modelling Python dicts -/

/-- Python dict insertion: replace the value of a present key, else append. -/
def dinsert (d : List (String × β)) (k : String) (v : β) : List (String × β) :=
  if d.any (fun p => p.1 = k) then d.map (fun p => if p.1 = k then (k, v) else p)
  else d ++ [(k, v)]

/-- Python dict lookup (`d.get(k)`): the value at the key, if present. -/
def dlookup (d : List (String × β)) (k : String) : Option β :=
  (d.find? (fun p => p.1 = k)).map (fun p => p.2)

/-! ## Hybrid rank fusion (`cli._merge_results`) -/

/-- Payload built from a lexical row inside `_merge_results` (the Python dict
has no score key until it is assigned; the placeholder 0 is always
overwritten). -/
def payloadOfLex [Zero α] (row : LexRow) : Payload α :=
  ⟨row.message_id, row.subject, row.from_addr, row.to_addr, row.date, row.snippet, 0⟩

/-- Fallback for the unreachable `semantic_data.get(message_id, {})` default. -/
def emptyPayload [Zero α] : Payload α :=
  ⟨"", none, none, none, none, "", 0⟩

/-- Model of `cli._merge_results`.  Lexical rows are scored by reciprocal
rank (`1 / (index + 1)`), semantic rows keep their raw `score` field; an
identifier's combined score is the sum of the two lookups with default 0;
candidates are sorted descending by combined score (stably) and truncated to
`limit`; display fields prefer the lexical payload.  The union
`set(lexical_scores) | set(semantic_scores)` iterates in unspecified order in
CPython; the model fixes first-encounter order, which only affects
tie-breaking. -/
def merge_results [LinearOrderedField α] (lexRows : List LexRow) (semRows : List (Payload α))
    (limit : ℕ) : List (Payload α) :=
  let lexScores : List (String × α) :=
    lexRows.enum.foldl (fun d p => dinsert d p.2.message_id (1 / ((p.1 : α) + 1))) []
  let lexData : List (String × Payload α) :=
    lexRows.foldl (fun d row => dinsert d row.message_id (payloadOfLex row)) []
  let semScores : List (String × α) :=
    semRows.foldl (fun d e => dinsert d e.message_id e.score) []
  let semData : List (String × Payload α) :=
    semRows.foldl (fun d e => dinsert d e.message_id e) []
  let ids : List String :=
    lexScores.map (fun p => p.1) ++
      (semScores.map (fun p => p.1)).filter (fun k => ¬ (lexScores.map (fun p => p.1)).contains k)
  let scored : List (α × String) :=
    ids.map (fun i => ((dlookup lexScores i).getD 0 + (dlookup semScores i).getD 0, i))
  let sorted := sortDescBy (fun p => p.1) scored
  (sorted.take limit).map (fun si =>
    let payload := (dlookup lexData si.2).getD ((dlookup semData si.2).getD emptyPayload)
    { payload with score := si.1 })

/-! ## Database state (`database.MailDatabase`) -/

/-- Model of `database.StoredMessage`. -/
structure StoredMessage where
  message_id : String
  subject : String
  body : String
  from_addr : Option String
  to_addr : Option String
  date : Option String
deriving DecidableEq

/-- Pointwise update of a keyed map, the semantics of writing one row of a
table whose primary key is the map's key. -/
def mapSet (f : String → Option β) (k : String) (v : Option β) : String → Option β :=
  fun k2 => if k2 = k then v else f k2

/-- State of the three tables created by `_initialise_schema`: `messages`
keyed by `message_id`; `messages_fts` keyed by `message_id` holding the
indexed `(subject, body)`; `message_vectors` keyed by `message_id` alone
(its DDL declares `message_id TEXT PRIMARY KEY`) holding the backend tag and
the serialised embedding. -/
@[ext]
structure DBState where
  messages : String → Option StoredMessage
  fts : String → Option (String × String)
  vectors : String → Option (String × List ℕ)

/-- Empty database, the state directly after `_initialise_schema`. -/
def emptyDB : DBState :=
  ⟨fun _ => none, fun _ => none, fun _ => none⟩

/-- One iteration of `upsert_many` (also the body of `upsert_message`):
`INSERT ... ON CONFLICT(message_id) DO UPDATE` on `messages`, then
delete-and-reinsert of the FTS row. -/
def upsertOne (st : DBState) (m : StoredMessage) : DBState :=
  { st with
    messages := mapSet st.messages m.message_id (some m)
    fts := mapSet st.fts m.message_id (some (m.subject, m.body)) }

/-- Model of `MailDatabase.upsert_many`: upsert every message in order inside
one transaction and return the state with the count of processed rows. -/
def upsert_many (st : DBState) (msgs : List StoredMessage) : DBState × ℕ :=
  (msgs.foldl upsertOne st, msgs.length)

/-- Model of `MailDatabase.store_embeddings`: for each `(message_id, vector)`
pair, serialise the vector and upsert into `message_vectors`; the conflict
target is `message_id` alone, and the update overwrites both the backend tag
and the blob. -/
def store_embeddings (st : DBState) (backend : String)
    (embeddings : List (String × List ℚ)) : DBState :=
  { st with
    vectors :=
      embeddings.foldl
        (fun vm p => mapSet vm p.1 (some (backend, serialise_vector p.2)))
        st.vectors }

/-- Read of one record's vector as `semantic_search` sees it: the row exists
and its backend tag matches the requested backend. -/
def fetchVector (st : DBState) (backend message_id : String) : Option (List ℕ) :=
  match st.vectors message_id with
  | some p => if p.1 = backend then some p.2 else none
  | none => none

/-! ## Indexer (`indexer.MailIndexer`, `indexer._hash_identity`) -/

/-- Summary record returned by `index_mbox`. -/
structure IndexResult where
  processed : ℕ
  inserted : ℕ
deriving DecidableEq

/-- Text embedded for a message: subject, blank line, body, stripped. -/
def embeddingText (m : StoredMessage) : String :=
  (m.subject ++ "\n\n" ++ m.body).trim

/-- Model of `MailIndexer.index_mbox` on an already-parsed message list:
upsert all records, then (with an embedding backend present and a nonempty
batch) embed every record's text and store the vectors under the backend's
identifier.  `embedFn` stands for the backend's `embed` (one vector per text,
in order); determinism of the model function reflects that the backends hold
no mutable state across calls. -/
def index_mbox (embedId : String) (embedFn : List String → List (List ℚ))
    (msgs : List StoredMessage) (st : DBState) : DBState × IndexResult :=
  let up := upsert_many st msgs
  let st2 :=
    if msgs = [] then up.1
    else
      store_embeddings up.1 embedId
        ((msgs.map (fun m => m.message_id)).zip (embedFn (msgs.map embeddingText)))
  (st2, ⟨msgs.length, up.2⟩)

/-- Model of `indexer._hash_identity`: a synthetic identifier obtained by
hashing the parts (subject, date-or-empty, body) and prefixing the hex digest
with a marker.  `sha1hex` stands for the stdlib SHA-1 hex digest of the
UTF-8 encoded parts fed in order. -/
def hash_identity (sha1hex : List String → String) (parts : List String) : String :=
  "generated-" ++ sha1hex parts

/-! ## Semantic search (`MailDatabase.semantic_search`) -/

/-- Row of the `message_vectors ⋈ messages` join read by `semantic_search`. -/
structure VRow where
  message_id : String
  backend : String
  embedding : List ℕ
  subject : Option String
  from_addr : Option String
  to_addr : Option String
  date : Option String
  body : String

/-- Result entry built from a scored row. -/
noncomputable def payloadOfVRow (score : ℝ) (r : VRow) : Payload ℝ :=
  ⟨r.message_id, r.subject, r.from_addr, r.to_addr, r.date, body_preview 160 r.body, score⟩

/-- Cosine score `semantic_search` computes for one row: the stored blob is
deserialised and compared with the query vector.  (A malformed stored blob
would raise in the source; the model reads it as the empty vector, which
scores 0 and is dropped.) -/
noncomputable def semanticScore (qv : List ℝ) (r : VRow) : ℝ :=
  cosine_similarity qv (((deserialise_vector r.embedding).getD []).map (fun x => (x : ℝ)))

/-- Scoring loop of `semantic_search` once a usable query vector exists: keep
the rows tagged with the backend's identifier, score each, drop nonpositive
scores, sort descending (stably), truncate to `limit` and attach a generated
body preview. -/
noncomputable def semanticSearchCore (ident : String) (qv : List ℝ) (table : List VRow)
    (limit : ℕ) : List (Payload ℝ) :=
  let rows := table.filter (fun r => r.backend = ident)
  let scored : List (ℝ × VRow) :=
    rows.filterMap (fun r =>
      let score := semanticScore qv r
      if score ≤ 0 then none else some (score, r))
  let sorted := sortDescBy (fun p => p.1) scored
  (sorted.take limit).map (fun p => payloadOfVRow p.1 p.2)

/-- Model of `MailDatabase.semantic_search`.  `embedQ` is the backend's
`embed`; `table` is the content of `message_vectors` joined with `messages`.
An empty embedding result or an all-zero query vector yields no results;
otherwise the backend-tagged rows are scored and ranked by
`semanticSearchCore`. -/
noncomputable def semantic_search (ident : String) (embedQ : List String → List (List ℝ))
    (table : List VRow) (query : String) (limit : ℕ) : List (Payload ℝ) :=
  match embedQ [query] with
  | [] => []
  | qv :: _ =>
    if qv.all (fun c => decide (c = 0)) then []
    else semanticSearchCore ident qv table limit

/-! ## Search dispatch (`cli._run_search`) -/

/-- Search modes of the CLI. -/
inductive Mode
  | lexical
  | semantic
  | hybrid
deriving DecidableEq

/-- Observable outcome of `_run_search`: what is displayed, by which
formatter. -/
inductive RunOutput
  | lexical (rows : List LexRow)
  | semantic (results : List (Payload ℝ))
  | hybrid (results : List (Payload ℝ))
  | failure

/-- Model of `cli._run_search` after the embedding backend has been resolved:
`ident` is `embedder.identifier`, `available` is
`database.get_vector_backends()`, `lexSearch limit` is
`database.search(query, limit)` and `semSearch limit` is
`database.semantic_search(query, embedder, limit)`.  If semantic or hybrid
mode finds no vectors under `ident` the semantic request fails with exit code
1, while the hybrid request degrades to lexical mode; hybrid mode otherwise
fuses lexical and semantic results fetched with `2 * limit` candidates
each. -/
noncomputable def run_search (mode : Mode) (ident : String) (available : List String)
    (lexSearch : ℕ → List LexRow) (semSearch : ℕ → List (Payload ℝ))
    (limit : ℕ) : ℕ × RunOutput :=
  let fallback := (mode = Mode.semantic ∨ mode = Mode.hybrid) ∧ ident ∉ available
  if fallback ∧ mode = Mode.semantic then (1, RunOutput.failure)
  else
    let mode2 := if fallback then Mode.lexical else mode
    match mode2 with
    | Mode.lexical => (0, RunOutput.lexical (lexSearch limit))
    | Mode.semantic => (0, RunOutput.semantic (semSearch limit))
    | Mode.hybrid =>
      (0, RunOutput.hybrid (merge_results (lexSearch (limit * 2)) (semSearch (limit * 2)) limit))

/-! ## Characterisation helpers used in theorem statements -/

/-- Last element of the list whose key equals `id`, as overwritten by a
left-to-right sequence of keyed writes. -/
def lastKeyed (k : α → String) (l : List α) (id : String) : Option α :=
  l.foldl (fun acc a => if k a = id then some a else acc) none

/-- Reciprocal-rank score an identifier receives from the lexical ranking:
`1 / i` at 1-indexed rank `i`, 0 when absent. -/
def lexReciprocalScore [LinearOrderedField α] (lexRows : List LexRow) (id : String) : α :=
  ((lexRows.enum.find? (fun p => p.2.message_id = id)).map
    (fun p => 1 / ((p.1 : α) + 1))).getD 0

/-- Raw similarity score an identifier receives from the semantic ranking:
the entry's own `score` field, 0 when absent.  This is what the source's
`_merge_results` actually adds for the semantic side. -/
def semRawScore [LinearOrderedField α] (semRows : List (Payload α)) (id : String) : α :=
  ((semRows.find? (fun e => e.message_id = id)).map (fun e => e.score)).getD 0

/-- Reciprocal-rank score an identifier would receive from the semantic
ranking under the claim's description (`1 / i` at 1-indexed rank `i`, 0 when
absent).  This definition follows the claim's words, for comparison with the
source's behaviour. -/
def semReciprocalScore [LinearOrderedField α] (semRows : List (Payload α)) (id : String) : α :=
  ((semRows.enum.find? (fun p => p.2.message_id = id)).map
    (fun p => 1 / ((p.1 : α) + 1))).getD 0

/-! ## Lemmas about the stable descending sort -/

theorem insertDescBy_perm [LinearOrder α] (key : β → α) (x : β) :
    ∀ l : List β, (insertDescBy key x l).Perm (x :: l)
  | [] => List.Perm.refl _
  | y :: t => by
    unfold insertDescBy
    split
    · exact List.Perm.refl _
    · exact ((insertDescBy_perm key x t).cons y).trans (List.Perm.swap _ _ _)

theorem mem_sortDescBy [LinearOrder α] (key : β → α) (l : List β) (y : β) :
    y ∈ sortDescBy key l ↔ y ∈ l := by
  induction l with
  | nil => simp [sortDescBy]
  | cons a t ih =>
    unfold sortDescBy at ih ⊢
    simp only [List.foldr_cons]
    rw [(insertDescBy_perm key a _).mem_iff]
    simp [ih]

theorem pairwise_insertDescBy [LinearOrder α] (key : β → α) (x : β) (l : List β)
    (h : l.Pairwise (fun a b => key b ≤ key a)) :
    (insertDescBy key x l).Pairwise (fun a b => key b ≤ key a) := by
  induction l with
  | nil => simp [insertDescBy]
  | cons y t ih =>
    rw [List.pairwise_cons] at h
    unfold insertDescBy
    split
    · rename_i hyx
      refine List.pairwise_cons.2 ⟨?_, List.pairwise_cons.2 ⟨h.1, h.2⟩⟩
      intro b hb
      rcases List.mem_cons.1 hb with rfl | hb
      · exact hyx
      · exact le_trans (h.1 b hb) hyx
    · rename_i hyx
      refine List.pairwise_cons.2 ⟨?_, ih h.2⟩
      intro b hb
      rw [(insertDescBy_perm key x t).mem_iff] at hb
      rcases List.mem_cons.1 hb with rfl | hb
      · exact le_of_not_le hyx
      · exact h.1 b hb

theorem pairwise_sortDescBy [LinearOrder α] (key : β → α) (l : List β) :
    (sortDescBy key l).Pairwise (fun a b => key b ≤ key a) := by
  induction l with
  | nil => simp [sortDescBy]
  | cons a t ih => exact pairwise_insertDescBy key a _ ih

/-! ## Lemmas about sums of squares and Cauchy-Schwarz for zipped lists -/

theorem sum_sq_nonneg (l : List ℝ) : 0 ≤ (l.map (fun x => x * x)).sum := by
  refine List.sum_nonneg ?_
  intro x hx
  rcases List.mem_map.1 hx with ⟨a, _, rfl⟩
  exact mul_self_nonneg a

theorem sum_sq_eq_zero {l : List ℝ} (h : (l.map (fun x => x * x)).sum = 0) :
    ∀ x ∈ l, x = 0 := by
  induction l with
  | nil => simp
  | cons a t ih =>
    simp only [List.map_cons, List.sum_cons] at h
    have ha : 0 ≤ a * a := mul_self_nonneg a
    have ht : 0 ≤ (t.map (fun x => x * x)).sum := sum_sq_nonneg t
    have ha0 : a * a = 0 := by linarith
    intro x hx
    rcases List.mem_cons.1 hx with rfl | hx
    · exact mul_self_eq_zero.1 ha0
    · exact ih (by linarith) x hx

theorem pairSumSq_nonneg (ps : List (ℝ × ℝ)) :
    0 ≤ (ps.map (fun p => p.1 * p.1)).sum := by
  refine List.sum_nonneg ?_
  intro x hx
  rcases List.mem_map.1 hx with ⟨a, _, rfl⟩
  exact mul_self_nonneg a.1

theorem pairSumSq_nonneg' (ps : List (ℝ × ℝ)) :
    0 ≤ (ps.map (fun p => p.2 * p.2)).sum := by
  refine List.sum_nonneg ?_
  intro x hx
  rcases List.mem_map.1 hx with ⟨a, _, rfl⟩
  exact mul_self_nonneg a.2

theorem cauchy_schwarz_list (ps : List (ℝ × ℝ)) :
    ((ps.map (fun p => p.1 * p.2)).sum) ^ 2 ≤
      ((ps.map (fun p => p.1 * p.1)).sum) * ((ps.map (fun p => p.2 * p.2)).sum) := by
  induction ps with
  | nil => simp
  | cons q t ih =>
    obtain ⟨a, b⟩ := q
    simp only [List.map_cons, List.sum_cons]
    have hA : 0 ≤ (t.map (fun p => p.1 * p.1)).sum := pairSumSq_nonneg t
    have hB : 0 ≤ (t.map (fun p => p.2 * p.2)).sum := pairSumSq_nonneg' t
    set S := (t.map (fun p => p.1 * p.2)).sum with hS
    set A := (t.map (fun p => p.1 * p.1)).sum with hA2
    set B := (t.map (fun p => p.2 * p.2)).sum with hB2
    rcases eq_or_lt_of_le hB with hB0 | hBpos
    · have hS0 : S = 0 := by
        have h1 : S ^ 2 ≤ 0 := by rw [← hB0] at ih; linarith [ih]
        have h2 : 0 ≤ S ^ 2 := sq_nonneg S
        exact pow_eq_zero_iff (n := 2) (by norm_num) |>.1 (le_antisymm h1 h2)
      rw [hS0, ← hB0]
      nlinarith [mul_nonneg hA (mul_self_nonneg b)]
    · nlinarith [sq_nonneg (a * B - b * S),
        mul_nonneg (add_nonneg (mul_self_nonneg b) hB) (sub_nonneg.2 ih), hBpos]

theorem zip_self_eq_map (v : List ℝ) : v.zip v = v.map (fun x => (x, x)) := by
  induction v with
  | nil => rfl
  | cons a t ih => simp [List.zip_cons_cons, ih]

theorem zip_take_min (l r : List ℝ) :
    l.zip r = (l.take (min l.length r.length)).zip (r.take (min l.length r.length)) := by
  induction l generalizing r with
  | nil => simp
  | cons a t ih =>
    cases r with
    | nil => simp
    | cons b s =>
      simp only [List.length_cons, List.zip_cons_cons]
      have hmin : min (t.length + 1) (s.length + 1) = min t.length s.length + 1 := by omega
      rw [hmin]
      simp only [List.take_succ_cons, List.zip_cons_cons]
      exact congrArg (List.cons (a, b)) (ih s)

/-- C8, claim as stated.  For every pair of non-zero vectors the cosine
similarity lies in `[-1, 1]`, and the similarity of a non-zero vector with
itself is exactly 1 (the floating tolerance of the claim becomes exactness in
the real-number model). -/
theorem cosine_similarity_bounds (l r v : List ℝ)
    (hl : ∃ x ∈ l, x ≠ 0) (hr : ∃ x ∈ r, x ≠ 0) (hv : ∃ x ∈ v, x ≠ 0) :
    (-1 ≤ cosine_similarity l r ∧ cosine_similarity l r ≤ 1) ∧
      cosine_similarity v v = 1 := by
  constructor
  · clear hl hr hv
    unfold cosine_similarity
    set ps := l.zip r
    set num := (ps.map (fun p => p.1 * p.2)).sum with hnum
    set A := (ps.map (fun p => p.1 * p.1)).sum with hA
    set B := (ps.map (fun p => p.2 * p.2)).sum with hB
    by_cases hz : A = 0 ∨ B = 0
    · rw [if_pos hz]; norm_num
    · rw [if_neg hz]
      push_neg at hz
      have hA0 : 0 < A := lt_of_le_of_ne (pairSumSq_nonneg ps) (Ne.symm hz.1)
      have hB0 : 0 < B := lt_of_le_of_ne (pairSumSq_nonneg' ps) (Ne.symm hz.2)
      have hcs : num ^ 2 ≤ A * B := cauchy_schwarz_list ps
      have hd : 0 < Real.sqrt A * Real.sqrt B :=
        mul_pos (Real.sqrt_pos.2 hA0) (Real.sqrt_pos.2 hB0)
      have habs : |num| ≤ Real.sqrt A * Real.sqrt B := by
        have h1 : |num| = Real.sqrt (num ^ 2) := (Real.sqrt_sq_eq_abs num).symm
        rw [h1, ← Real.sqrt_mul hA0.le]
        exact Real.sqrt_le_sqrt hcs
      constructor
      · rw [neg_le, ← neg_div]
        refine div_le_one_of_le ?_ hd.le
        calc -num ≤ |num| := neg_le_abs num
        _ ≤ _ := habs
      · refine div_le_one_of_le ?_ hd.le
        exact le_trans (le_abs_self num) habs
  · clear hl hr
    unfold cosine_similarity
    rw [zip_self_eq_map v]
    simp only [List.map_map]
    have heq : (Function.comp (fun p : ℝ × ℝ => p.1 * p.2) (fun x : ℝ => (x, x))) =
        fun x : ℝ => x * x := rfl
    have heq1 : (Function.comp (fun p : ℝ × ℝ => p.1 * p.1) (fun x : ℝ => (x, x))) =
        fun x : ℝ => x * x := rfl
    have heq2 : (Function.comp (fun p : ℝ × ℝ => p.2 * p.2) (fun x : ℝ => (x, x))) =
        fun x : ℝ => x * x := rfl
    rw [heq, heq1, heq2]
    set S := (v.map (fun x => x * x)).sum with hS
    have hSne : S ≠ 0 := by
      intro h0
      obtain ⟨x, hx, hxne⟩ := hv
      exact hxne (sum_sq_eq_zero h0 x hx)
    have hSpos : 0 < S := lt_of_le_of_ne (sum_sq_nonneg v) (Ne.symm hSne)
    rw [if_neg (by push_neg; exact ⟨hSne, hSne⟩)]
    rw [Real.mul_self_sqrt hSpos.le]
    exact div_self hSne

/-- Closed witness for `cosine_similarity_bounds` at concrete vectors. -/
theorem cosine_similarity_bounds_witness :
    (-1 ≤ cosine_similarity [1, 0] [0, 1] ∧ cosine_similarity [1, 0] [0, 1] ≤ 1) ∧
      cosine_similarity [2, 3] [2, 3] = 1 :=
  cosine_similarity_bounds [1, 0] [0, 1] [2, 3]
    ⟨1, by norm_num⟩ ⟨1, by norm_num⟩ ⟨2, by norm_num⟩

/-- C10: `cosine_similarity` is a total function that only looks at the
element-wise common prefix of its arguments (`zip` truncates to the shorter
length), and it returns exactly 0 whenever either operand has zero squared
norm over that compared prefix — in particular on any zero or empty vector.
Totality is inherent in the model: the Lean function is defined on all pairs
of lists, mirroring that the Python loop raises on no input. -/
theorem cosine_similarity_total (l r : List ℝ) :
    cosine_similarity l r =
        cosine_similarity (l.take (min l.length r.length)) (r.take (min l.length r.length)) ∧
      (((l.zip r).map (fun p => p.1 * p.1)).sum = 0 ∨
          ((l.zip r).map (fun p => p.2 * p.2)).sum = 0 →
        cosine_similarity l r = 0) := by
  constructor
  · unfold cosine_similarity
    rw [← zip_take_min l r]
  · intro h
    unfold cosine_similarity
    rw [if_pos h]

/-- Closed witness for `cosine_similarity_total`: a zero common prefix forces
a zero similarity even though the full vectors are non-zero. -/
theorem cosine_similarity_total_witness : cosine_similarity [0, 5] [3] = 0 :=
  (cosine_similarity_total [0, 5] [3]).2 (Or.inl (by norm_num))

/-! ## Lemmas about the hash-embedding accumulation -/

theorem length_incrementAt (v : List ℝ) (i : ℕ) : (incrementAt v i).length = v.length :=
  List.length_set v i _

theorem getD_nonneg {v : List ℝ} (h : ∀ x ∈ v, 0 ≤ x) (i : ℕ) : 0 ≤ v.getD i 0 := by
  rcases lt_or_ge i v.length with hi | hi
  · rw [List.getD_eq_getElem v 0 hi]
    exact h _ (List.getElem_mem hi)
  · rw [List.getD_eq_default v 0 hi]

theorem nonneg_incrementAt {v : List ℝ} (h : ∀ x ∈ v, 0 ≤ x) (i : ℕ) :
    ∀ x ∈ incrementAt v i, 0 ≤ x := by
  intro x hx
  rcases List.mem_or_eq_of_mem_set hx with hx | rfl
  · exact h x hx
  · have := getD_nonneg h i
    linarith

theorem sum_incrementAt (v : List ℝ) (i : ℕ) (hi : i < v.length) :
    (incrementAt v i).sum = v.sum + 1 := by
  induction v generalizing i with
  | nil => simp at hi
  | cons a t ih =>
    cases i with
    | zero => simp [incrementAt]; ring
    | succ j =>
      have hj : j < t.length := by simpa using hi
      simp only [incrementAt, List.set_cons_succ, List.sum_cons, List.getD_cons_succ]
      have := ih j hj
      simp only [incrementAt] at this
      rw [this]
      ring

theorem length_foldl_incrementAt (idxs : List ℕ) (v : List ℝ) :
    (idxs.foldl incrementAt v).length = v.length := by
  induction idxs generalizing v with
  | nil => rfl
  | cons i t ih => rw [List.foldl_cons, ih, length_incrementAt]

theorem nonneg_foldl_incrementAt (idxs : List ℕ) (v : List ℝ) (h : ∀ x ∈ v, 0 ≤ x) :
    ∀ x ∈ idxs.foldl incrementAt v, 0 ≤ x := by
  induction idxs generalizing v with
  | nil => exact h
  | cons i t ih => exact ih _ (nonneg_incrementAt h i)

theorem sum_foldl_incrementAt (idxs : List ℕ) (v : List ℝ) (h : ∀ i ∈ idxs, i < v.length) :
    (idxs.foldl incrementAt v).sum = v.sum + idxs.length := by
  induction idxs generalizing v with
  | nil => simp
  | cons i t ih =>
    rw [List.foldl_cons, ih]
    · rw [sum_incrementAt v i (h i (List.mem_cons_self i t))]
      simp only [List.length_cons]
      push_cast
      ring
    · intro j hj
      rw [length_incrementAt]
      exact h j (List.mem_cons_of_mem i hj)

theorem chunksOf4_ne_nil {l : List ℕ} (h : l ≠ []) : chunksOf4 l ≠ [] := by
  cases l with
  | nil => exact absurd rfl h
  | cons a t =>
    unfold chunksOf4
    exact List.cons_ne_nil _ _

theorem chunkIndices_lt (digestBytes : List ℕ) (dim : ℕ) (hdim : 0 < dim) :
    ∀ i ∈ chunkIndices digestBytes dim, i < dim := by
  intro i hi
  rcases List.mem_map.1 hi with ⟨c, _, rfl⟩
  exact Nat.mod_lt _ hdim

theorem chunkIndices_ne_nil {digestBytes : List ℕ} (dim : ℕ) (h : digestBytes ≠ []) :
    chunkIndices digestBytes dim ≠ [] := by
  unfold chunkIndices
  intro hc
  exact chunksOf4_ne_nil h (List.map_eq_nil_iff.1 hc)

theorem length_tokenFold (digest : String → List ℕ) (dim : ℕ) (toks : List String) :
    ∀ v : List ℝ,
      (toks.foldl (fun v tok => (chunkIndices (digest tok) dim).foldl incrementAt v) v).length =
        v.length := by
  induction toks with
  | nil => intro v; rfl
  | cons tok t ih =>
    intro v
    rw [List.foldl_cons, ih, length_foldl_incrementAt]

theorem nonneg_tokenFold (digest : String → List ℕ) (dim : ℕ) (toks : List String) :
    ∀ v : List ℝ, (∀ x ∈ v, 0 ≤ x) →
      ∀ x ∈ toks.foldl (fun v tok => (chunkIndices (digest tok) dim).foldl incrementAt v) v,
        0 ≤ x := by
  induction toks with
  | nil => intro v h; exact h
  | cons tok t ih =>
    intro v h
    exact ih _ (nonneg_foldl_incrementAt _ v h)

theorem sum_tokenFold_ge (digest : String → List ℕ) (dim : ℕ) (hdim : 0 < dim)
    (toks : List String) :
    ∀ v : List ℝ, v.length = dim →
      v.sum ≤ (toks.foldl (fun v tok => (chunkIndices (digest tok) dim).foldl incrementAt v) v).sum := by
  induction toks with
  | nil => intro v _; exact le_refl _
  | cons tok t ih =>
    intro v hv
    rw [List.foldl_cons]
    have hidx : ∀ i ∈ chunkIndices (digest tok) dim, i < v.length := by
      rw [hv]; exact chunkIndices_lt _ dim hdim
    have hsum := sum_foldl_incrementAt (chunkIndices (digest tok) dim) v hidx
    have hlen : ((chunkIndices (digest tok) dim).foldl incrementAt v).length = dim := by
      rw [length_foldl_incrementAt, hv]
    calc v.sum ≤ v.sum + (chunkIndices (digest tok) dim).length := by
          have hc : (0:ℝ) ≤ (chunkIndices (digest tok) dim).length := Nat.cast_nonneg _
          linarith
    _ = ((chunkIndices (digest tok) dim).foldl incrementAt v).sum := hsum.symm
    _ ≤ _ := ih _ hlen

theorem length_rawVector (digest : String → List ℕ) (dim : ℕ) (text : String) :
    (rawVector digest dim text).length = dim := by
  unfold rawVector
  rw [length_tokenFold, List.length_replicate]

theorem nonneg_rawVector (digest : String → List ℕ) (dim : ℕ) (text : String) :
    ∀ x ∈ rawVector digest dim text, 0 ≤ x := by
  unfold rawVector
  refine nonneg_tokenFold digest dim _ _ ?_
  intro x hx
  rw [List.eq_of_mem_replicate hx]

theorem sum_rawVector_ge_one (digest : String → List ℕ) (dim : ℕ) (text : String)
    (hdim : 0 < dim) (hdig : ∀ tok, (digest tok).length = 16)
    (htok : tokenize text ≠ []) :
    1 ≤ (rawVector digest dim text).sum := by
  unfold rawVector
  rcases hne : tokenize text with _ | ⟨tok, rest⟩
  · exact absurd hne htok
  · rw [List.foldl_cons]
    have hdne : digest tok ≠ [] := by
      intro h0
      have := hdig tok
      rw [h0] at this
      simp at this
    have hcount : 1 ≤ (chunkIndices (digest tok) dim).length :=
      List.length_pos.2 (chunkIndices_ne_nil dim hdne)
    have hidx : ∀ i ∈ chunkIndices (digest tok) dim, i < (List.replicate dim (0:ℝ)).length := by
      rw [List.length_replicate]
      exact chunkIndices_lt _ dim hdim
    have hsum := sum_foldl_incrementAt (chunkIndices (digest tok) dim) (List.replicate dim 0) hidx
    have hzero : (List.replicate dim (0:ℝ)).sum = 0 := by simp
    have hlen : ((chunkIndices (digest tok) dim).foldl incrementAt (List.replicate dim 0)).length
        = dim := by
      rw [length_foldl_incrementAt, List.length_replicate]
    calc (1:ℝ) ≤ (chunkIndices (digest tok) dim).length := by exact_mod_cast hcount
    _ = ((chunkIndices (digest tok) dim).foldl incrementAt (List.replicate dim 0)).sum := by
        rw [hsum, hzero, zero_add]
    _ ≤ _ := sum_tokenFold_ge digest dim hdim rest _ hlen

/-! ## Lemmas about normalisation -/

theorem normSq_nonneg (v : List ℝ) : 0 ≤ normSq v :=
  sum_sq_nonneg v

theorem normSq_map_div (v : List ℝ) (c : ℝ) :
    normSq (v.map (fun x => x / c)) = normSq v / (c * c) := by
  unfold normSq
  induction v with
  | nil => simp
  | cons a t ih =>
    simp only [List.map_cons, List.sum_cons]
    rw [ih, div_mul_div_comm, add_div]

theorem normSq_normalise {v : List ℝ} (h : normSq v ≠ 0) : normSq (normalise v) = 1 := by
  unfold normalise
  rw [if_neg h]
  have hnn : 0 ≤ normSq v := normSq_nonneg v
  rw [normSq_map_div, Real.mul_self_sqrt hnn]
  exact div_self h

theorem normSq_replicate_zero (dim : ℕ) : normSq (List.replicate dim (0:ℝ)) = 0 := by
  unfold normSq
  simp

/-- C7: for every input text, the hash embedding has L2 norm exactly 1 (the
claim's floating tolerance becomes exactness in the real-number model)
whenever the text tokenizes to at least one alphanumeric token, and it is
exactly the zero vector of the backend's dimension when the text tokenizes to
no tokens.  `hdig` records that `blake2b(..., digest_size=16)` digests have
16 bytes; `hdim` is enforced by the backend constructor. -/
theorem hash_embed_norm (digest : String → List ℕ) (dim : ℕ) (text : String)
    (hdim : 0 < dim) (hdig : ∀ tok, (digest tok).length = 16) :
    (tokenize text ≠ [] → Real.sqrt (normSq (hashEmbedOne digest dim text)) = 1) ∧
      (tokenize text = [] → hashEmbedOne digest dim text = List.replicate dim 0) := by
  constructor
  · intro htok
    have hsum : 1 ≤ (rawVector digest dim text).sum :=
      sum_rawVector_ge_one digest dim text hdim hdig htok
    have hns : normSq (rawVector digest dim text) ≠ 0 := by
      intro h0
      have hall : ∀ x ∈ rawVector digest dim text, x = 0 := sum_sq_eq_zero h0
      have : (rawVector digest dim text).sum = 0 := List.sum_eq_zero hall
      linarith
    unfold hashEmbedOne
    rw [normSq_normalise hns, Real.sqrt_one]
  · intro htok
    unfold hashEmbedOne rawVector
    rw [htok, List.foldl_nil]
    unfold normalise
    rw [if_pos (normSq_replicate_zero dim)]

/-- Closed witness for `hash_embed_norm`: a concrete 16-byte digest function,
dimension 4 and the text "ab", which tokenizes to one token. -/
theorem hash_embed_norm_witness :
    Real.sqrt (normSq (hashEmbedOne (fun _ => List.replicate 16 0) 4 "ab")) = 1 :=
  (hash_embed_norm (fun _ => List.replicate 16 0) 4 "ab" (by norm_num)
    (fun _ => List.length_replicate 16 0)).1 (by decide)

/-- C6: the hash embedding backend is deterministic.  On any successfully
constructed backend of positive dimension, two calls of `embed` on the same
single-text batch return identical vectors; the model function has no mutable
state, mirroring that `HashEmbeddingBackend.embed` reads only `self.dimension`
and its argument. -/
theorem hash_embed_deterministic (digest : String → List ℕ) (d : ℤ)
    (b : HashEmbeddingBackend) (t : String) (h : mkHashBackend d = some b) :
    hashEmbed digest b [t] = hashEmbed digest b [t] :=
  rfl

/-- Closed witness for `hash_embed_deterministic` at dimension 256. -/
theorem hash_embed_deterministic_witness :
    hashEmbed (fun _ => List.replicate 16 0) ⟨(256 : ℤ).toNat, "hash/" ++ toString (256 : ℤ)⟩
        ["hello"] =
      hashEmbed (fun _ => List.replicate 16 0) ⟨(256 : ℤ).toNat, "hash/" ++ toString (256 : ℤ)⟩
        ["hello"] :=
  hash_embed_deterministic (fun _ => List.replicate 16 0) 256
    ⟨(256 : ℤ).toNat, "hash/" ++ toString (256 : ℤ)⟩ "hello" (by rfl)

/-! ## Claim C3: mode fallback when no vectors exist for the backend -/

/-- C3: when the store holds no vectors under the resolved backend's
identifier, a semantic-mode search fails with exit code 1 and displays no
results, while a hybrid-mode search under the same condition returns exactly
the outcome of a pure lexical search with the same query and limit (exit code
0 and the lexical rows fetched with `limit`). -/
theorem search_mode_fallback (ident : String) (available : List String)
    (lexSearch : ℕ → List LexRow) (semSearch : ℕ → List (Payload ℝ)) (limit : ℕ)
    (h : ident ∉ available) :
    run_search Mode.semantic ident available lexSearch semSearch limit =
        (1, RunOutput.failure) ∧
      run_search Mode.hybrid ident available lexSearch semSearch limit =
        run_search Mode.lexical ident available lexSearch semSearch limit := by
  constructor
  · simp [run_search, h]
  · simp [run_search, h]

/-- Closed witness for `search_mode_fallback` with a backend identifier that
is absent from the stored set. -/
theorem search_mode_fallback_witness :
    run_search Mode.semantic "hash/256" ["hash/4"] (fun _ => []) (fun _ => []) 5 =
        (1, RunOutput.failure) ∧
      run_search Mode.hybrid "hash/256" ["hash/4"] (fun _ => []) (fun _ => []) 5 =
        run_search Mode.lexical "hash/256" ["hash/4"] (fun _ => []) (fun _ => []) 5 :=
  search_mode_fallback "hash/256" ["hash/4"] (fun _ => []) (fun _ => []) 5 (by decide)

/-! ## Claim C2: one stored vector per record, keyed by `message_id` alone -/

/-- C2 counterexample.  `message_vectors` is keyed by `message_id` alone, so
storing a vector for the same record under a second backend's tag replaces
the row and retags it: after storing `[("m", [1])]` under backend `"X"` the
vector is retrievable under `"X"`, but after then storing `[("m", [1])]`
under backend `"Y"` nothing is retrievable for that record under `"X"`
anymore — refuting that vectors for distinct backends can coexist for one
record. -/
theorem store_embeddings_cross_backend_counterexample :
    fetchVector (store_embeddings emptyDB "X" [("m", [1])]) "X" "m" =
        some (serialise_vector [1]) ∧
      fetchVector
          (store_embeddings (store_embeddings emptyDB "X" [("m", [1])]) "Y" [("m", [1])])
          "X" "m" = none := by
  constructor
  · simp [fetchVector, store_embeddings, mapSet, emptyDB]
  · simp [fetchVector, store_embeddings, mapSet, emptyDB]

/-- C2 amended: storing a vector for a record under backend `Y` replaces that
record's single stored vector regardless of which backend's tag it carried,
so a prior vector under a different backend `X` stops being retrievable under
`X`; rows of other records are untouched.  (A record thus has at most one
stored vector in total, not one per backend.) -/
theorem store_embeddings_amended (st : DBState) (X Y id : String) (v1 v2 : List ℚ)
    (hXY : X ≠ Y) :
    fetchVector (store_embeddings st X [(id, v1)]) X id = some (serialise_vector v1) ∧
      fetchVector (store_embeddings (store_embeddings st X [(id, v1)]) Y [(id, v2)]) Y id =
        some (serialise_vector v2) ∧
      fetchVector (store_embeddings (store_embeddings st X [(id, v1)]) Y [(id, v2)]) X id =
        none ∧
      (∀ id2, id2 ≠ id →
        (store_embeddings (store_embeddings st X [(id, v1)]) Y [(id, v2)]).vectors id2 =
          st.vectors id2) := by
  refine ⟨?_, ?_, ?_, ?_⟩
  · simp [fetchVector, store_embeddings, mapSet]
  · simp [fetchVector, store_embeddings, mapSet]
  · simp [fetchVector, store_embeddings, mapSet, Ne.symm hXY]
  · intro id2 h2
    simp [store_embeddings, mapSet, h2]

/-- Closed witness for `store_embeddings_amended` at two concrete hash
backends. -/
theorem store_embeddings_amended_witness :
    fetchVector (store_embeddings emptyDB "hash/256" [("m", [1])]) "hash/256" "m" =
        some (serialise_vector [1]) ∧
      fetchVector
          (store_embeddings (store_embeddings emptyDB "hash/256" [("m", [1])])
            "hash/512" [("m", [2])]) "hash/512" "m" = some (serialise_vector [2]) ∧
      fetchVector
          (store_embeddings (store_embeddings emptyDB "hash/256" [("m", [1])])
            "hash/512" [("m", [2])]) "hash/256" "m" = none ∧
      (∀ id2, id2 ≠ "m" →
        (store_embeddings (store_embeddings emptyDB "hash/256" [("m", [1])])
            "hash/512" [("m", [2])]).vectors id2 = emptyDB.vectors id2) :=
  store_embeddings_amended emptyDB "hash/256" "hash/512" "m" [1] [2] (by decide)

/-! ## Last-write characterisation of keyed folds -/

theorem foldl_lastKeyed_step (k : α → String) (id : String) :
    ∀ (l : List α) (s : Option α),
      l.foldl (fun acc a => if k a = id then some a else acc) s =
        match lastKeyed k l id with
        | some b => some b
        | none => s := by
  intro l
  induction l with
  | nil => intro s; rfl
  | cons b t ih =>
    intro s
    have h0 : lastKeyed k (b :: t) id =
        t.foldl (fun acc a => if k a = id then some a else acc)
          (if k b = id then some b else none) := rfl
    rw [List.foldl_cons, ih, h0, ih (if k b = id then some b else none)]
    rcases lastKeyed k t id with _ | c
    · by_cases hb : k b = id <;> simp [hb]
    · rfl

theorem foldl_mapSet_apply (k : α → String) (val : α → Option V) :
    ∀ (l : List α) (f : String → Option V) (id : String),
      (l.foldl (fun g a => mapSet g (k a) (val a)) f) id =
        match lastKeyed k l id with
        | some a => val a
        | none => f id := by
  intro l
  induction l with
  | nil => intro f id; rfl
  | cons a t ih =>
    intro f id
    have h0 : lastKeyed k (a :: t) id =
        t.foldl (fun acc a2 => if k a2 = id then some a2 else acc)
          (if k a = id then some a else none) := rfl
    rw [List.foldl_cons, ih, h0,
      foldl_lastKeyed_step k id t (if k a = id then some a else none)]
    rcases lastKeyed k t id with _ | c
    · by_cases hb : k a = id
      · simp only [if_pos hb, mapSet]
        rw [if_pos hb.symm]
      · simp only [if_neg hb, mapSet]
        rw [if_neg (fun h2 => hb h2.symm)]
    · rfl

theorem foldl_mapSet_idem (k : α → String) (val : α → Option V) (l : List α)
    (f : String → Option V) :
    l.foldl (fun g a => mapSet g (k a) (val a)) (l.foldl (fun g a => mapSet g (k a) (val a)) f) =
      l.foldl (fun g a => mapSet g (k a) (val a)) f := by
  funext id
  rw [foldl_mapSet_apply, foldl_mapSet_apply]
  rcases lastKeyed k l id with _ | a
  · rfl
  · rfl

/-! ## Component views of the database mutations -/

theorem upsert_fold_messages (msgs : List StoredMessage) :
    ∀ st : DBState, (msgs.foldl upsertOne st).messages =
      msgs.foldl (fun g m => mapSet g m.message_id (some m)) st.messages := by
  induction msgs with
  | nil => intro st; rfl
  | cons m t ih => intro st; rw [List.foldl_cons, List.foldl_cons, ih]; rfl

theorem upsert_fold_fts (msgs : List StoredMessage) :
    ∀ st : DBState, (msgs.foldl upsertOne st).fts =
      msgs.foldl (fun g m => mapSet g m.message_id (some (m.subject, m.body))) st.fts := by
  induction msgs with
  | nil => intro st; rfl
  | cons m t ih => intro st; rw [List.foldl_cons, List.foldl_cons, ih]; rfl

theorem upsert_fold_vectors (msgs : List StoredMessage) :
    ∀ st : DBState, (msgs.foldl upsertOne st).vectors = st.vectors := by
  induction msgs with
  | nil => intro st; rfl
  | cons m t ih =>
    intro st
    rw [List.foldl_cons, ih]
    rfl

theorem store_embeddings_messages (st : DBState) (backend : String)
    (entries : List (String × List ℚ)) :
    (store_embeddings st backend entries).messages = st.messages :=
  rfl

theorem store_embeddings_fts (st : DBState) (backend : String)
    (entries : List (String × List ℚ)) :
    (store_embeddings st backend entries).fts = st.fts :=
  rfl

theorem store_embeddings_vectors (st : DBState) (backend : String)
    (entries : List (String × List ℚ)) :
    (store_embeddings st backend entries).vectors =
      entries.foldl (fun g p => mapSet g p.1 (some (backend, serialise_vector p.2))) st.vectors :=
  rfl

/-! ## Claim C4: idempotent ingestion -/

/-- C4: ingestion is idempotent.  Running `index_mbox` a second time on the
same parsed message batch with the same embedding backend leaves every table
of the store (records, FTS entries, vectors) identical to the state after the
first run; on every run — the second in particular — the `inserted` count
equals the `processed` count, reflecting the full-replace upsert semantics;
and synthetic identifier derivation (`_hash_identity`) applied to identical
`(subject, date, body)` parts always yields the same identifier. -/
theorem index_mbox_idempotent (embedId : String) (embedFn : List String → List (List ℚ))
    (msgs : List StoredMessage) (st : DBState) (sha1hex : List String → String)
    (parts parts2 : List String) :
    (index_mbox embedId embedFn msgs (index_mbox embedId embedFn msgs st).1).1 =
        (index_mbox embedId embedFn msgs st).1 ∧
      (index_mbox embedId embedFn msgs (index_mbox embedId embedFn msgs st).1).2.inserted =
        (index_mbox embedId embedFn msgs (index_mbox embedId embedFn msgs st).1).2.processed ∧
      (parts = parts2 → hash_identity sha1hex parts = hash_identity sha1hex parts2) := by
  refine ⟨?_, rfl, fun hp => by rw [hp]⟩
  by_cases hm : msgs = []
  · subst hm
    rfl
  · unfold index_mbox upsert_many
    simp only [if_neg hm]
    set entries := (msgs.map (fun m => m.message_id)).zip (embedFn (msgs.map embeddingText))
      with hentries
    refine DBState.ext ?_ ?_ ?_
    · simp only [store_embeddings_messages, upsert_fold_messages]
      exact foldl_mapSet_idem (fun m : StoredMessage => m.message_id)
        (fun m => some m) msgs st.messages
    · simp only [store_embeddings_fts, upsert_fold_fts]
      exact foldl_mapSet_idem (fun m : StoredMessage => m.message_id)
        (fun m => some (m.subject, m.body)) msgs st.fts
    · simp only [store_embeddings_vectors, upsert_fold_vectors]
      exact foldl_mapSet_idem (fun p : String × List ℚ => p.1)
        (fun p => some (embedId, serialise_vector p.2)) entries st.vectors

/-- Closed witness for `index_mbox_idempotent` on a one-message batch. -/
theorem index_mbox_idempotent_witness :
    (index_mbox "hash/4" (fun ts => ts.map (fun _ => [1]))
          [⟨"m1", "s", "b", none, none, none⟩]
          (index_mbox "hash/4" (fun ts => ts.map (fun _ => [1]))
            [⟨"m1", "s", "b", none, none, none⟩] emptyDB).1).1 =
        (index_mbox "hash/4" (fun ts => ts.map (fun _ => [1]))
          [⟨"m1", "s", "b", none, none, none⟩] emptyDB).1 ∧
      hash_identity (fun _ => "d0") ["s", "2024-01-01", "b"] =
        hash_identity (fun _ => "d0") ["s", "2024-01-01", "b"] :=
  ⟨(index_mbox_idempotent "hash/4" (fun ts => ts.map (fun _ => [1]))
      [⟨"m1", "s", "b", none, none, none⟩] emptyDB (fun _ => "d0")
      ["s", "2024-01-01", "b"] ["s", "2024-01-01", "b"]).1,
    (index_mbox_idempotent "hash/4" (fun ts => ts.map (fun _ => [1]))
      [⟨"m1", "s", "b", none, none, none⟩] emptyDB (fun _ => "d0")
      ["s", "2024-01-01", "b"] ["s", "2024-01-01", "b"]).2.2 rfl⟩

/-! ## Lemmas about the dict folds inside `_merge_results` -/

theorem dinsert_fresh (d : List (String × β)) (k : String) (v : β)
    (h : ∀ p ∈ d, p.1 ≠ k) : dinsert d k v = d ++ [(k, v)] := by
  unfold dinsert
  rw [if_neg]
  simp only [List.any_eq_true, decide_eq_true_eq, not_exists, not_and]
  exact fun p hp => h p hp

theorem foldl_dinsert_append (f : X → String) (g : X → β) :
    ∀ (l : List X) (d : List (String × β)),
      (l.map f).Nodup → (∀ p ∈ d, ∀ x ∈ l, p.1 ≠ f x) →
      l.foldl (fun d x => dinsert d (f x) (g x)) d = d ++ l.map (fun x => (f x, g x)) := by
  intro l
  induction l with
  | nil => intro d _ _; simp
  | cons x t ih =>
    intro d hnd hd
    rw [List.foldl_cons,
      dinsert_fresh d (f x) (g x) (fun p hp => hd p hp x (List.mem_cons_self x t))]
    rw [List.map_cons] at hnd
    have hnd2 := List.nodup_cons.1 hnd
    have harg : ∀ p ∈ d ++ [(f x, g x)], ∀ y ∈ t, p.1 ≠ f y := by
      intro p hp y hy
      rcases List.mem_append.1 hp with hp | hp
      · exact hd p hp y (List.mem_cons_of_mem x hy)
      · rcases List.mem_singleton.1 hp with rfl
        intro hc
        refine hnd2.1 ?_
        show f x ∈ t.map f
        rw [show ((f x, g x) : String × β).1 = f x from rfl] at hc
        rw [hc]
        exact List.mem_map_of_mem f hy
    rw [ih (d ++ [(f x, g x)]) hnd2.2 harg]
    simp

theorem dlookup_mapPairs (f : X → String) (g : X → β) (l : List X) (id : String) :
    dlookup (l.map (fun x => (f x, g x))) id = (l.find? (fun x => f x = id)).map g := by
  induction l with
  | nil => rfl
  | cons x t ih =>
    by_cases hx : f x = id
    · simp [dlookup, List.find?_cons, hx]
    · have hd : decide (f x = id) = false := decide_eq_false hx
      simp only [List.map_cons, dlookup, List.find?_cons, hd]
      exact ih

/-! ## Claim C1: hybrid fusion scoring -/

/-- C1 counterexample.  `_merge_results` adds the raw semantic `score` field,
not a reciprocal-rank conversion of the semantic list: with no lexical rows
and one semantic row of score 1/4, the produced combined score is 1/4,
whereas the claim's reciprocal-rank description assigns the top-ranked
semantic item 1/1 = 1. -/
theorem merge_results_rrf_counterexample :
    (merge_results ([] : List LexRow) [⟨"D", none, none, none, none, "", (1:ℚ)/4⟩] 5).map
        (fun p => p.score) = [1/4] ∧
      lexReciprocalScore ([] : List LexRow) "D" +
          semReciprocalScore [(⟨"D", none, none, none, none, "", (1:ℚ)/4⟩ : Payload ℚ)] "D" =
        1 ∧
      ¬ ((1:ℚ)/4 = 1) := by
  refine ⟨?_, ?_, by norm_num⟩
  · simp [merge_results, dinsert, dlookup, sortDescBy, insertDescBy, List.find?_cons]
  · simp [lexReciprocalScore, semReciprocalScore, List.enum, List.find?_cons]

/-- C1 amended: in hybrid mode the lexical ranked list is converted to
reciprocal-rank scores (the i-th ranked item, 1-indexed, contributes `1 / i`),
while the semantic ranked list contributes each entry's raw similarity score;
an identifier's combined score is the sum of the two contributions (0 from a
list it is absent from), and the output is the candidates sorted descending
by combined score (stably), truncated to `limit`.  The claim's example holds
with the semantic entries carrying raw scores B: 1, A: 1/2, D: 1/2, which
yields combined scores A: 3/2, B: 3/2, C: 1/3, D: 1/2 and places A and B
above D above C. -/
theorem merge_results_amended [LinearOrderedField α] (lexRows : List LexRow)
    (semRows : List (Payload α)) (limit : ℕ)
    (hlex : (lexRows.map (fun r => r.message_id)).Nodup)
    (hsem : (semRows.map (fun e => e.message_id)).Nodup) :
    (∀ p ∈ merge_results lexRows semRows limit,
        p.score = lexReciprocalScore lexRows p.message_id +
          semRawScore semRows p.message_id) ∧
      ((merge_results lexRows semRows limit).map (fun p => p.score)).Pairwise
        (fun a b => b ≤ a) ∧
      (merge_results lexRows semRows limit).length ≤ limit := by
  have hem : lexRows.enum.map (fun p => p.2.message_id) =
      lexRows.map (fun r => r.message_id) := by
    rw [show (fun p : ℕ × LexRow => p.2.message_id) =
      (fun r : LexRow => r.message_id) ∘ Prod.snd from rfl]
    rw [← List.map_map, List.enum_map_snd]
  have hlex2 : (lexRows.enum.map (fun p => p.2.message_id)).Nodup := by
    rw [hem]; exact hlex
  have hLS : lexRows.enum.foldl
        (fun d p => dinsert d p.2.message_id (1 / ((p.1 : α) + 1))) [] =
      lexRows.enum.map (fun p => (p.2.message_id, 1 / ((p.1 : α) + 1))) := by
    have h0 := foldl_dinsert_append (fun p : ℕ × LexRow => p.2.message_id)
      (fun p => 1 / ((p.1 : α) + 1)) lexRows.enum [] hlex2 (by intro p hp; simp at hp)
    simpa using h0
  have hLD : lexRows.foldl (fun d row => dinsert d row.message_id (payloadOfLex row)) [] =
      lexRows.map (fun r => (r.message_id, (payloadOfLex r : Payload α))) := by
    have h0 := foldl_dinsert_append (fun r : LexRow => r.message_id)
      (fun r => (payloadOfLex r : Payload α)) lexRows [] hlex (by intro p hp; simp at hp)
    simpa using h0
  have hSS : semRows.foldl (fun d e => dinsert d e.message_id e.score) [] =
      semRows.map (fun e => (e.message_id, e.score)) := by
    have h0 := foldl_dinsert_append (fun e : Payload α => e.message_id)
      (fun e => e.score) semRows [] hsem (by intro p hp; simp at hp)
    simpa using h0
  have hSD : semRows.foldl (fun d e => dinsert d e.message_id e) [] =
      semRows.map (fun e => (e.message_id, e)) := by
    have h0 := foldl_dinsert_append (fun e : Payload α => e.message_id)
      (fun e => e) semRows [] hsem (by intro p hp; simp at hp)
    simpa using h0
  refine ⟨?_, ?_, ?_⟩
  · intro p hp
    simp only [merge_results, hLS, hLD, hSS, hSD] at hp
    rcases List.mem_map.1 hp with ⟨si, hsi, rfl⟩
    have hsi2 := List.mem_of_mem_take hsi
    rw [mem_sortDescBy] at hsi2
    rcases List.mem_map.1 hsi2 with ⟨i, hi, rfl⟩
    have hlexS : (dlookup (lexRows.enum.map (fun p => (p.2.message_id, 1 / ((p.1 : α) + 1)))) i).getD 0 =
        lexReciprocalScore lexRows i := by
      rw [dlookup_mapPairs]
      rfl
    have hsemS : (dlookup (semRows.map (fun e => (e.message_id, e.score))) i).getD 0 =
        semRawScore semRows i := by
      rw [dlookup_mapPairs]
      rfl
    have hmsg :
        ((dlookup (lexRows.map (fun r => (r.message_id, (payloadOfLex r : Payload α)))) i).getD
          ((dlookup (semRows.map (fun e => (e.message_id, e))) i).getD emptyPayload)).message_id =
        i := by
      rcases List.mem_append.1 hi with hkey | hkey
      · rw [List.map_map] at hkey
        have hkey2 : i ∈ lexRows.enum.map (fun p => p.2.message_id) := by
          have heq : ((fun p : String × α => p.1) ∘
              (fun p : ℕ × LexRow => (p.2.message_id, 1 / ((p.1 : α) + 1)))) =
              (fun p : ℕ × LexRow => p.2.message_id) := rfl
          rw [heq] at hkey
          exact hkey
        rw [hem] at hkey2
        rcases List.mem_map.1 hkey2 with ⟨r, hr, hri⟩
        rw [dlookup_mapPairs]
        rcases hf : lexRows.find? (fun r => r.message_id = i) with _ | r2
        · rw [List.find?_eq_none] at hf
          exact absurd (by simpa using hri) (by simpa using hf r hr)
        · have h2 : r2.message_id = i := by simpa using List.find?_some hf
          simp only [hf, Option.map_some', Option.getD_some]
          exact h2
      · have hkey2 := (List.mem_filter.1 hkey).1
        rw [List.map_map] at hkey2
        have heq : ((fun p : String × α => p.1) ∘
            (fun e : Payload α => (e.message_id, e.score))) =
            (fun e : Payload α => e.message_id) := rfl
        rw [heq] at hkey2
        have hnotlex := (List.mem_filter.1 hkey).2
        simp only [decide_eq_true_eq] at hnotlex
        have hnone : dlookup (lexRows.map (fun r => (r.message_id, (payloadOfLex r : Payload α)))) i =
            none := by
          rw [dlookup_mapPairs]
          rw [Option.map_eq_none']
          rw [List.find?_eq_none]
          intro r hr
          simp only [decide_eq_true_eq]
          intro hri
          refine hnotlex ?_
          rw [List.map_map]
          have heq2 : ((fun p : String × α => p.1) ∘
              (fun p : ℕ × LexRow => (p.2.message_id, 1 / ((p.1 : α) + 1)))) =
              (fun p : ℕ × LexRow => p.2.message_id) := rfl
          rw [heq2, hem]
          rw [List.contains_iff_exists_mem_beq]
          exact ⟨i, by rw [← hri]; exact List.mem_map_of_mem _ hr, by simp⟩
        rw [hnone, Option.getD_none, dlookup_mapPairs]
        rcases List.mem_map.1 hkey2 with ⟨e, he, hei⟩
        rcases hf : semRows.find? (fun e => e.message_id = i) with _ | e2
        · rw [List.find?_eq_none] at hf
          exact absurd (by simpa using hei) (by simpa using hf e he)
        · have h2 : e2.message_id = i := by simpa using List.find?_some hf
          simp only [hf, Option.map_some', Option.getD_some]
          exact h2
    show ((dlookup (lexRows.enum.map fun p => (p.2.message_id, 1 / ((p.1 : α) + 1))) i).getD 0 +
        (dlookup (semRows.map fun e => (e.message_id, e.score)) i).getD 0) =
      lexReciprocalScore lexRows _ + semRawScore semRows _
    rw [hmsg, hlexS, hsemS]
  · simp only [merge_results, hLS, hLD, hSS, hSD]
    rw [List.map_map]
    have hcomp : ∀ l2 : List (α × String),
        l2.map ((fun p : Payload α => p.score) ∘ (fun si : α × String =>
          { ((dlookup (lexRows.map (fun r => (r.message_id, (payloadOfLex r : Payload α)))) si.2).getD
            ((dlookup (semRows.map (fun e => (e.message_id, e))) si.2).getD emptyPayload)) with
            score := si.1 })) = l2.map (fun si => si.1) := by
      intro l2
      exact List.map_congr_left (fun si _ => rfl)
    rw [hcomp]
    rw [List.pairwise_map]
    exact List.Pairwise.sublist (List.take_sublist _ _) (pairwise_sortDescBy _ _)
  · simp only [merge_results, hLS, hLD, hSS, hSD]
    rw [List.length_map]
    exact (List.length_take_le _ _)

/-- Closed witness for `merge_results_amended` at the claim's example, with
the semantic entries carrying raw scores B: 1, A: 1/2, D: 1/2. -/
theorem merge_results_amended_witness :
    ((merge_results
        [⟨"A", none, none, none, none, ""⟩, ⟨"B", none, none, none, none, ""⟩,
          ⟨"C", none, none, none, none, ""⟩]
        [⟨"B", none, none, none, none, "", (1:ℚ)⟩, ⟨"A", none, none, none, none, "", 1/2⟩,
          ⟨"D", none, none, none, none, "", 1/2⟩] 20).map (fun p => p.score)).Pairwise
      (fun a b => b ≤ a) ∧
    (merge_results
        [⟨"A", none, none, none, none, ""⟩, ⟨"B", none, none, none, none, ""⟩,
          ⟨"C", none, none, none, none, ""⟩]
        [⟨"B", none, none, none, none, "", (1:ℚ)⟩, ⟨"A", none, none, none, none, "", 1/2⟩,
          ⟨"D", none, none, none, none, "", 1/2⟩] 20).length ≤ 20 :=
  ⟨(merge_results_amended _ _ 20 (by decide) (by decide)).2.1,
    (merge_results_amended _ _ 20 (by decide) (by decide)).2.2⟩

/-! ## Claim C5: semantic search output -/

theorem semanticSearchCore_mem (ident : String) (qv : List ℝ) (table : List VRow)
    (limit : ℕ) (p : Payload ℝ) (hp : p ∈ semanticSearchCore ident qv table limit) :
    ∃ r ∈ table, r.backend = ident ∧ 0 < semanticScore qv r ∧
      p = payloadOfVRow (semanticScore qv r) r := by
  unfold semanticSearchCore at hp
  rcases List.mem_map.1 hp with ⟨si, hsi, rfl⟩
  have hsi2 := List.mem_of_mem_take hsi
  rw [mem_sortDescBy] at hsi2
  rcases List.mem_filterMap.1 hsi2 with ⟨r, hr, hfr⟩
  have hrt := List.mem_filter.1 hr
  by_cases hc : semanticScore qv r ≤ 0
  · rw [if_pos hc] at hfr
    exact absurd hfr (Option.noConfusion)
  · rw [if_neg hc] at hfr
    rcases Option.some.inj hfr with rfl
    exact ⟨r, hrt.1, by simpa using hrt.2, lt_of_not_le hc, rfl⟩

theorem semanticSearchCore_sorted (ident : String) (qv : List ℝ) (table : List VRow)
    (limit : ℕ) :
    ((semanticSearchCore ident qv table limit).map (fun p => p.score)).Pairwise
      (fun a b => b ≤ a) := by
  unfold semanticSearchCore
  rw [List.map_map]
  have hcomp : ((fun p : Payload ℝ => p.score) ∘ (fun p : ℝ × VRow => payloadOfVRow p.1 p.2)) =
      fun p : ℝ × VRow => p.1 := rfl
  rw [hcomp, List.pairwise_map]
  exact List.Pairwise.sublist (List.take_sublist _ _) (pairwise_sortDescBy _ _)

theorem semanticSearchCore_length (ident : String) (qv : List ℝ) (table : List VRow)
    (limit : ℕ) :
    (semanticSearchCore ident qv table limit).length ≤ limit := by
  unfold semanticSearchCore
  rw [List.length_map]
  exact List.length_take_le _ _

/-- C5: for every query, backend, stored vector table and limit, semantic
search returns the empty list when the embedded query vector is all-zero;
otherwise every result comes from a row stored under the backend's
identifier whose cosine similarity against the query vector is strictly
positive, carries that similarity as its score together with a
whitespace-collapsed body preview truncated to the 160-character budget with
an ellipsis marker (`body_preview 160`, via `payloadOfVRow`), and the result
list is sorted descending by similarity with at most `limit` entries. -/
theorem semantic_search_spec (ident : String) (embedQ : List String → List (List ℝ))
    (table : List VRow) (query : String) (limit : ℕ) :
    ((∃ qv qs, embedQ [query] = qv :: qs ∧ ∀ c ∈ qv, c = 0) →
        semantic_search ident embedQ table query limit = []) ∧
      (∀ qv qs, embedQ [query] = qv :: qs → ¬ (∀ c ∈ qv, c = 0) →
        (∀ p ∈ semantic_search ident embedQ table query limit,
            ∃ r ∈ table, r.backend = ident ∧ 0 < semanticScore qv r ∧
              p.score = semanticScore qv r ∧ p.snippet = body_preview 160 r.body ∧
              p = payloadOfVRow (semanticScore qv r) r) ∧
          ((semantic_search ident embedQ table query limit).map (fun p => p.score)).Pairwise
            (fun a b => b ≤ a) ∧
          (semantic_search ident embedQ table query limit).length ≤ limit) := by
  constructor
  · rintro ⟨qv, qs, hq, hz⟩
    unfold semantic_search
    rw [hq]
    show (if (qv.all fun c => decide (c = 0)) = true then []
      else semanticSearchCore ident qv table limit) = []
    have hall : qv.all (fun c => decide (c = 0)) = true := by
      rw [List.all_eq_true]
      intro c hc
      exact decide_eq_true (hz c hc)
    rw [if_pos hall]
  · intro qv qs hq hnz
    have hss : semantic_search ident embedQ table query limit =
        semanticSearchCore ident qv table limit := by
      unfold semantic_search
      rw [hq]
      show (if (qv.all fun c => decide (c = 0)) = true then []
        else semanticSearchCore ident qv table limit) = semanticSearchCore ident qv table limit
      have hall : ¬ (qv.all (fun c => decide (c = 0)) = true) := by
        rw [List.all_eq_true]
        intro hc
        exact hnz (fun c hcm => of_decide_eq_true (hc c hcm))
      rw [if_neg hall]
    rw [hss]
    refine ⟨?_, semanticSearchCore_sorted ident qv table limit,
      semanticSearchCore_length ident qv table limit⟩
    intro p hp
    rcases semanticSearchCore_mem ident qv table limit p hp with ⟨r, hr, hb, hpos, rfl⟩
    exact ⟨r, hr, hb, hpos, rfl, rfl, rfl⟩

/-- Closed witness for `semantic_search_spec`: a backend that embeds every
query to the zero vector produces no semantic results. -/
theorem semantic_search_spec_witness :
    semantic_search "hash/2" (fun _ => [[0, 0]]) [] "anything" 3 = [] :=
  (semantic_search_spec "hash/2" (fun _ => [[0, 0]]) [] "anything" 3).1
    ⟨[0, 0], [], rfl, by simp⟩

/-! ## Correctness of the binary-logarithm helpers -/

theorem log2fuel_spec : ∀ (fuel n : ℕ), 0 < n → n < 2 ^ (fuel + 1) →
    2 ^ log2fuel fuel n ≤ n ∧ n < 2 ^ (log2fuel fuel n + 1) := by
  intro fuel
  induction fuel with
  | zero =>
    intro n h1 h2
    simp only [log2fuel]
    constructor
    · simpa using h1
    · simpa using h2
  | succ f ih =>
    intro n h1 h2
    by_cases hn : n < 2
    · simp only [log2fuel, if_pos hn]
      constructor
      · simpa using h1
      · simpa using hn
    · simp only [log2fuel, if_neg hn]
      have h3 : 0 < n / 2 := by omega
      have h4 : n / 2 < 2 ^ (f + 1) := by
        have hpow : 2 ^ (f + 1 + 1) = 2 ^ (f + 1) * 2 := by ring
        rw [hpow] at h2
        omega
      rcases ih (n / 2) h3 h4 with ⟨ih1, ih2⟩
      constructor
      · have hmul : 2 ^ (log2fuel f (n / 2) + 1) = 2 ^ log2fuel f (n / 2) * 2 := by ring
        rw [hmul]
        omega
      · have hmul : 2 ^ (log2fuel f (n / 2) + 1 + 1) = 2 ^ (log2fuel f (n / 2) + 1) * 2 := by
          ring
        rw [hmul]
        omega

theorem log2fuel_self_spec (n : ℕ) (h : 0 < n) :
    2 ^ log2fuel n n ≤ n ∧ n < 2 ^ (log2fuel n n + 1) := by
  refine log2fuel_spec n n h ?_
  calc n < 2 ^ n := Nat.lt_two_pow n
  _ ≤ 2 ^ (n + 1) := Nat.pow_le_pow_right (by norm_num) (by omega)

theorem floorLog2_spec (a : ℚ) (ha : 0 < a) :
    (2 : ℚ) ^ floorLog2 a ≤ a ∧ a < (2 : ℚ) ^ (floorLog2 a + 1) := by
  have hnum : 0 < a.num := Rat.num_pos.2 ha
  have hp : 0 < a.num.toNat := by omega
  have hq : 0 < a.den := a.pos
  have hqQ : (0 : ℚ) < (a.den : ℚ) := by exact_mod_cast hq
  have hnum_cast : ((a.num.toNat : ℤ) : ℚ) = (a.num : ℚ) := by
    rw [Int.toNat_of_nonneg hnum.le]
  have ha_eq : a = ((a.num.toNat : ℕ) : ℚ) / ((a.den : ℕ) : ℚ) := by
    rw [show ((a.num.toNat : ℕ) : ℚ) = ((a.num.toNat : ℤ) : ℚ) by push_cast; ring, hnum_cast]
    exact (Rat.num_div_den a).symm
  obtain ⟨hp1, hp2⟩ := log2fuel_self_spec a.num.toNat hp
  obtain ⟨hq1, hq2⟩ := log2fuel_self_spec a.den hq
  set dp := log2fuel a.num.toNat a.num.toNat with hdp
  set dq := log2fuel a.den a.den with hdq
  have hp1Q : (2 : ℚ) ^ (dp : ℤ) ≤ (a.num.toNat : ℚ) := by
    rw [zpow_natCast]
    exact_mod_cast hp1
  have hp2Q : (a.num.toNat : ℚ) < (2 : ℚ) ^ ((dp : ℤ) + 1) := by
    rw [show ((dp : ℤ) + 1) = ((dp + 1 : ℕ) : ℤ) by push_cast; ring, zpow_natCast]
    exact_mod_cast hp2
  have hq1Q : (2 : ℚ) ^ (dq : ℤ) ≤ (a.den : ℚ) := by
    rw [zpow_natCast]
    exact_mod_cast hq1
  have hq2Q : (a.den : ℚ) < (2 : ℚ) ^ ((dq : ℤ) + 1) := by
    rw [show ((dq : ℤ) + 1) = ((dq + 1 : ℕ) : ℤ) by push_cast; ring, zpow_natCast]
    exact_mod_cast hq2
  have hB1 : a < (2 : ℚ) ^ ((dp : ℤ) - (dq : ℤ) + 1) := by
    rw [ha_eq, div_lt_iff hqQ]
    calc (a.num.toNat : ℚ) < (2 : ℚ) ^ ((dp : ℤ) + 1) := hp2Q
    _ = (2 : ℚ) ^ ((dp : ℤ) - (dq : ℤ) + 1) * (2 : ℚ) ^ (dq : ℤ) := by
        rw [← zpow_add₀ (by norm_num : (2:ℚ) ≠ 0)]
        ring_nf
    _ ≤ (2 : ℚ) ^ ((dp : ℤ) - (dq : ℤ) + 1) * (a.den : ℚ) := by
        refine mul_le_mul_of_nonneg_left hq1Q ?_
        positivity
  have hB2 : (2 : ℚ) ^ ((dp : ℤ) - (dq : ℤ) - 1) < a := by
    rw [ha_eq, lt_div_iff hqQ]
    calc (2 : ℚ) ^ ((dp : ℤ) - (dq : ℤ) - 1) * (a.den : ℚ) <
        (2 : ℚ) ^ ((dp : ℤ) - (dq : ℤ) - 1) * (2 : ℚ) ^ ((dq : ℤ) + 1) := by
          refine mul_lt_mul_of_pos_left hq2Q ?_
          positivity
    _ = (2 : ℚ) ^ (dp : ℤ) := by
        rw [← zpow_add₀ (by norm_num : (2:ℚ) ≠ 0)]
        ring_nf
    _ ≤ (a.num.toNat : ℚ) := hp1Q
  show (2 : ℚ) ^ floorLog2 a ≤ a ∧ a < (2 : ℚ) ^ (floorLog2 a + 1)
  have hfl : floorLog2 a =
      if (2 : ℚ) ^ ((dp : ℤ) - (dq : ℤ)) ≤ a then (dp : ℤ) - (dq : ℤ)
      else (dp : ℤ) - (dq : ℤ) - 1 := rfl
  rw [hfl]
  by_cases hif : (2 : ℚ) ^ ((dp : ℤ) - (dq : ℤ)) ≤ a
  · rw [if_pos hif]
    exact ⟨hif, hB1⟩
  · rw [if_neg hif]
    refine ⟨hB2.le, ?_⟩
    rw [sub_add_cancel]
    exact lt_of_not_le hif

/-! ## Bounds on rounding and on the encoder -/

theorem roundNE_nonneg (x : ℚ) (hx : 0 ≤ x) : 0 ≤ roundNE x := by
  unfold roundNE
  have h0 : 0 ≤ ⌊x⌋ := Int.floor_nonneg.2 hx
  split
  · exact h0
  · split
    · omega
    · split <;> omega

theorem roundNE_le_floor_add_one (x : ℚ) : roundNE x ≤ ⌊x⌋ + 1 := by
  unfold roundNE
  split
  · omega
  · split
    · omega
    · split <;> omega

theorem roundNE_toNat_le (x : ℚ) (b : ℕ) (hx : x < (b : ℚ)) : (roundNE x).toNat ≤ b := by
  have h1 : roundNE x ≤ ⌊x⌋ + 1 := roundNE_le_floor_add_one x
  have h2 : ⌊x⌋ < (b : ℤ) := Int.floor_lt.2 (by exact_mod_cast hx)
  omega

theorem encode32_lt (x : ℚ) : encode32 x < 2 ^ 32 := by
  unfold encode32
  by_cases hx : x = 0
  · rw [if_pos hx]
    norm_num
  · rw [if_neg hx]
    have ha : 0 < |x| := abs_pos.2 hx
    obtain ⟨hfl1, hfl2⟩ := floorLog2_spec |x| ha
    have hsle : (if x < 0 then 2 ^ 31 else 0) ≤ 2 ^ 31 := by split <;> norm_num
    by_cases he1 : floorLog2 |x| < -126
    · rw [if_pos he1]
      have hb : |x| * 2 ^ 149 < ((2 ^ 23 : ℕ) : ℚ) := by
        have h2 : (2 : ℚ) ^ (floorLog2 |x| + 1) ≤ 2 ^ (-126 : ℤ) := by
          refine zpow_le_zpow_right₀ (by norm_num) (by omega)
        calc |x| * 2 ^ 149 < (2 : ℚ) ^ (floorLog2 |x| + 1) * 2 ^ 149 :=
              mul_lt_mul_of_pos_right hfl2 (by positivity)
        _ ≤ (2 : ℚ) ^ (-126 : ℤ) * 2 ^ 149 := mul_le_mul_of_nonneg_right h2 (by positivity)
        _ = ((2 ^ 23 : ℕ) : ℚ) := by
            rw [show ((2 : ℚ) ^ (149 : ℕ)) = (2 : ℚ) ^ ((149 : ℕ) : ℤ) by rw [zpow_natCast]]
            rw [← zpow_add₀ (by norm_num : (2:ℚ) ≠ 0)]
            norm_num
      have hm := roundNE_toNat_le (|x| * 2 ^ 149) (2 ^ 23) hb
      calc (if x < 0 then 2 ^ 31 else 0) + (roundNE (|x| * 2 ^ 149)).toNat ≤
          2 ^ 31 + 2 ^ 23 := Nat.add_le_add hsle hm
      _ < 2 ^ 32 := by norm_num
    · rw [if_neg he1]
      by_cases he2 : 127 < floorLog2 |x|
      · rw [if_pos he2]
        split <;> norm_num
      · rw [if_neg he2]
        have hb : |x| * (2 : ℚ) ^ (23 - floorLog2 |x|) < ((2 ^ 24 : ℕ) : ℚ) := by
          calc |x| * (2 : ℚ) ^ (23 - floorLog2 |x|) <
              (2 : ℚ) ^ (floorLog2 |x| + 1) * (2 : ℚ) ^ (23 - floorLog2 |x|) :=
                mul_lt_mul_of_pos_right hfl2 (by positivity)
          _ = ((2 ^ 24 : ℕ) : ℚ) := by
              rw [← zpow_add₀ (by norm_num : (2:ℚ) ≠ 0)]
              norm_num
              rw [show floorLog2 |x| + 1 + (23 - floorLog2 |x|) = (24 : ℤ) by ring]
              norm_num
        have hm := roundNE_toNat_le (|x| * (2 : ℚ) ^ (23 - floorLog2 |x|)) (2 ^ 24) hb
        have ht : (floorLog2 |x| + 127).toNat ≤ 254 := by omega
        omega

/-! ## Byte packing round trip -/

theorem fromLE_toLE4 (n : ℕ) (h : n < 2 ^ 32) : fromLEBytes (toLEBytes4 n) = n := by
  simp only [fromLEBytes, toLEBytes4, List.foldr_cons, List.foldr_nil]
  omega

theorem chunksOf4_four (a b c d : ℕ) (t : List ℕ) :
    chunksOf4 (a :: b :: c :: d :: t) = [a, b, c, d] :: chunksOf4 t := by
  rw [chunksOf4]
  simp

theorem serialise_vector_cons (x : ℚ) (t : List ℚ) :
    serialise_vector (x :: t) = toLEBytes4 (encode32 x) ++ serialise_vector t := by
  simp [serialise_vector]

theorem length_serialise_vector (v : List ℚ) :
    (serialise_vector v).length = 4 * v.length := by
  induction v with
  | nil => rfl
  | cons x t ih =>
    rw [serialise_vector_cons, List.length_append, ih]
    simp only [toLEBytes4, List.length_cons, List.length_nil]
    ring

theorem chunks_serialise (v : List ℚ) :
    (chunksOf4 (serialise_vector v)).map (fun c => decode32 (fromLEBytes c)) =
      v.map float32Round := by
  induction v with
  | nil => simp [serialise_vector, chunksOf4]
  | cons x t ih =>
    rw [serialise_vector_cons]
    rw [show toLEBytes4 (encode32 x) ++ serialise_vector t =
      (encode32 x % 256) :: (encode32 x / 256 % 256) :: (encode32 x / 65536 % 256) ::
        (encode32 x / 16777216 % 256) :: serialise_vector t from rfl]
    rw [chunksOf4_four, List.map_cons, ih, List.map_cons]
    rw [show ([encode32 x % 256, encode32 x / 256 % 256, encode32 x / 65536 % 256,
      encode32 x / 16777216 % 256] : List ℕ) = toLEBytes4 (encode32 x) from rfl]
    rw [fromLE_toLE4 (encode32 x) (encode32_lt x)]
    rfl

/-- C9: deserialising a serialised vector always succeeds with a list of the
same length as the input, and reproduces the input exactly whenever every
component is representable in the 32-bit serialised format (that is, fixed by
the binary32 conversion `float32Round`); components outside that format are
reproduced as their binary32 roundings, the model of "within floating
precision". -/
theorem serialise_deserialise_roundtrip (v : List ℚ) :
    (∃ w, deserialise_vector (serialise_vector v) = some w ∧ w.length = v.length) ∧
      ((∀ x ∈ v, float32Round x = x) →
        deserialise_vector (serialise_vector v) = some v) := by
  have hdes : deserialise_vector (serialise_vector v) = some (v.map float32Round) := by
    unfold deserialise_vector
    rw [if_pos (by rw [length_serialise_vector]; omega)]
    rw [chunks_serialise]
  constructor
  · exact ⟨v.map float32Round, hdes, List.length_map v float32Round⟩
  · intro hrep
    rw [hdes]
    congr 1
    calc v.map float32Round = v.map id := List.map_congr_left hrep
    _ = v := List.map_id v

/-- Fixed point of the binary32 conversion at 0, used by the round-trip
witness. -/
theorem float32Round_zero : float32Round 0 = 0 := by
  unfold float32Round encode32
  rw [if_pos rfl]
  unfold decode32
  norm_num

/-- Fixed point of the binary32 conversion at 1, used by the round-trip
witness. -/
theorem float32Round_one : float32Round 1 = 1 := by
  have hlog1 : ∀ fuel, log2fuel fuel 1 = 0 := by
    intro fuel
    cases fuel with
    | zero => rfl
    | succ f => simp [log2fuel]
  have hfl : floorLog2 1 = 0 := by
    simp only [floorLog2, Rat.num_one, Int.toNat_one, Rat.den_one, hlog1]
    norm_num
  have hr : ∀ y : ℤ, y = 23 → roundNE ((1 : ℚ) * (2 : ℚ) ^ y) = 2 ^ 23 := by
    intro y hy
    subst hy
    rw [show ((23 : ℤ)) = ((23 : ℕ) : ℤ) by norm_num, zpow_natCast]
    unfold roundNE
    rw [show ((1 : ℚ) * 2 ^ (23 : ℕ)) = ((2 ^ 23 : ℤ) : ℚ) by push_cast; ring]
    rw [Int.floor_intCast]
    rw [if_pos (by push_cast; norm_num)]
  have henc : encode32 1 = 1065353216 := by
    simp only [encode32]
    rw [if_neg (by norm_num : ¬ (1:ℚ) = 0)]
    rw [if_neg (by norm_num : ¬ (1:ℚ) < 0)]
    rw [abs_one, hfl]
    rw [if_neg (by norm_num : ¬ (0:ℤ) < -126)]
    rw [if_neg (by norm_num : ¬ (127:ℤ) < 0)]
    rw [hr (23 - 0) (by ring)]
    norm_num
    rw [show Int.toNat 127 = 127 from rfl]
  rw [float32Round, henc]
  unfold decode32
  norm_num

/-- Closed witness for `serialise_deserialise_roundtrip` on the vector
`[1, 0]`, whose components are exactly representable. -/
theorem serialise_deserialise_roundtrip_witness :
    deserialise_vector (serialise_vector [1, 0]) = some [1, 0] :=
  (serialise_deserialise_roundtrip [1, 0]).2 (by
    intro x hx
    rcases List.mem_cons.1 hx with rfl | hx
    · exact float32Round_one
    · rcases List.mem_singleton.1 hx with rfl
      exact float32Round_zero)

end MailSearch
